import Mathlib

/-!
Verification of the leak-detector suspicion analyzer
(src/leak_analyzer_old.cc) against its natural-language specification.

The allocation-class identity type (ValueType in the source) is an opaque,
totally ordered key; it is embedded here as Nat.  A ranked snapshot is a
list of (value, count) pairs in descending count order; the analyzer trusts
the caller on that ordering.  The suspicion-score table
(std::map<ValueType, int> suspected_histogram_) is embedded as an
association list kept in ascending key order with unique keys, matching
std::map iteration order.  The current-suspect std::set is embedded as a
strictly ascending list of values, matching std::set iteration order.
-/

/-- Reinterpretation of a machine word as a signed 32-bit integer, i.e. the
conversion of the unsigned subtraction result back to the signed int that
the ranked list stores.  (Two complement, as on every supported target.) -/
def toInt32 (n : Nat) : Int :=
  if n % 4294967296 < 2147483648 then ((n % 4294967296 : Nat) : Int)
  else ((n % 4294967296 : Nat) : Int) - 4294967296

/-- The delta computation of AddSample (line 64 of the source):
entry.count - prev_count where prev_count is a uint32_t, so the C++
usual arithmetic conversions perform the subtraction modulo 2^32 and the
result is stored back as a signed 32-bit count. -/
def cppDelta (current prev : Nat) : Int :=
  toInt32 (current % 4294967296 + (4294967296 - prev % 4294967296))

/-- Modelled from the spec: insertion into the external RankedList keeps the
list in descending order by count, ties broken by encounter order (a new
entry goes after existing entries of equal count).  The RankedList container
itself lives outside src/ and is specified only at the interface level. -/
def insertDesc (e : Nat × Int) : List (Nat × Int) → List (Nat × Int)
  | [] => [e]
  | x :: xs => if e.2 ≤ x.2 then x :: insertDesc e xs else e :: x :: xs

/-- Modelled from the spec: RankedList.Add inserts maintaining
descending-by-count order and truncates beyond the capacity. -/
def RankedList.Add (cap : Nat) (l : List (Nat × Int)) (v : Nat) (c : Int) :
    List (Nat × Int) :=
  (insertDesc (v, c) l).take cap

/-- Analyzer state: configuration, the two stored snapshots, the suspicion
score table and the reported leak list (fields of LeakAnalyzer in the
source). -/
structure LeakAnalyzer where
  ranking_size : Nat
  score_threshold : Nat
  prev_ranked_entries : List (Nat × Nat)
  ranked_entries : List (Nat × Nat)
  suspected_histogram : List (Nat × Nat)
  suspected_leaks : List Nat
deriving Repr

/-- Freshly constructed analyzer: empty snapshots, empty score table, empty
leak list. -/
def LeakAnalyzer.init (rsize thr : Nat) : LeakAnalyzer :=
  ⟨rsize, thr, [], [], [], []⟩

/-- GetPreviousCountForValue (lines 234-244): linear scan of the previous
snapshot, returning the count of the first entry with the given value. -/
def GetPreviousCountForValue (prev : List (Nat × Nat)) (v : Nat) : Option Nat :=
  match prev with
  | [] => none
  | e :: rest => if e.1 = v then some e.2 else GetPreviousCountForValue rest v

/-- One iteration of the delta loop of AddSample (lines 60-65): a delta
entry is added only when GetPreviousCountForValue succeeds; the delta is
the wrapped signed difference. -/
def deltaStep (cap : Nat) (prev : List (Nat × Nat)) (rd : List (Nat × Int))
    (e : Nat × Nat) : List (Nat × Int) :=
  match GetPreviousCountForValue prev e.1 with
  | some pc => RankedList.Add cap rd e.1 (cppDelta e.2 pc)
  | none => rd

/-- The delta list built by AddSample (lines 59-65). -/
def computeDeltas (cap : Nat) (prev snap : List (Nat × Nat)) :
    List (Nat × Int) :=
  snap.foldl (deltaStep cap prev) []

/-- Scan of AnalyzeDeltas (lines 166-178): walk adjacent pairs, returning
the position just after the first entry whose delta is more than twice the
next delta (the drop position iterator). -/
def findDropAux : List (Nat × Int) → Nat → Option Nat
  | x :: y :: rest, i =>
      if 2 * y.2 < x.2 then some (i + 1) else findDropAux (y :: rest) (i + 1)
  | _, _ => none

/-- Drop detection of AnalyzeDeltas (lines 158-180): only lists with more
than one entry and a positive first delta are scanned. -/
def findDrop (l : List (Nat × Int)) : Option Nat :=
  match l with
  | x :: _ :: _ => if 0 < x.2 then findDropAux l 0 else none
  | _ => none

/-- Insertion into the std::set of current suspects: strictly ascending,
duplicates collapse. -/
def setInsert (v : Nat) : List Nat → List Nat
  | [] => [v]
  | x :: xs => if v < x then v :: x :: xs else if v = x then x :: xs else x :: setInsert v xs

/-- The current-suspect set of AnalyzeDeltas (lines 182-192): values of all
delta entries strictly before the drop position, collected into an ordered
set; empty when no drop was found. -/
def currentSuspects (l : List (Nat × Int)) : List Nat :=
  match findDrop l with
  | some di => ((l.take di).map Prod.fst).foldl (fun s v => setInsert v s) []
  | none => []

/-- Decay step of AnalyzeDeltas (lines 195-204): every score-table entry
whose value is not currently suspected is erased. -/
def decay (hist : List (Nat × Nat)) (susp : List Nat) : List (Nat × Nat) :=
  hist.filter (fun e => susp.contains e.1)

/-- Lookup by key in the score table (std::map::find). -/
def lookupScore (hist : List (Nat × Nat)) (v : Nat) : Option Nat :=
  match hist with
  | [] => none
  | e :: rest => if e.1 = v then some e.2 else lookupScore rest v

/-- Score increment for an already-tracked value (line 211). -/
def incr (v : Nat) (hist : List (Nat × Nat)) : List (Nat × Nat) :=
  hist.map (fun e => if e.1 = v then (e.1, e.2 + 1) else e)

/-- Keyed insertion into the score table, keeping ascending key order
(std::map bracket assignment, line 214). -/
def mapInsert (v c : Nat) : List (Nat × Nat) → List (Nat × Nat)
  | [] => [(v, c)]
  | e :: rest =>
      if v < e.1 then (v, c) :: e :: rest
      else if v = e.1 then (v, c) :: rest
      else e :: mapInsert v c rest

/-- Reinforcement for one suspected value (lines 209-215): increment an
existing entry, otherwise insert with score 1 only while the table holds
fewer than ranking_size entries. -/
def reinforceStep (rsize : Nat) (hist : List (Nat × Nat)) (v : Nat) :
    List (Nat × Nat) :=
  match lookupScore hist v with
  | some _ => incr v hist
  | none => if hist.length < rsize then mapInsert v 1 hist else hist

/-- Reinforcement loop of AnalyzeDeltas (lines 208-216), iterating the
current-suspect set in its (ascending) iteration order. -/
def reinforce (rsize : Nat) (hist : List (Nat × Nat)) (susp : List Nat) :
    List (Nat × Nat) :=
  susp.foldl (reinforceStep rsize) hist

/-- Confirmation loop of AnalyzeDeltas (lines 221-231): rebuild the leak
list by iterating the score table in key order, breaking as soon as the
accumulated output holds more than ranking_size entries (checked before
appending), and appending every value whose score reaches the threshold. -/
def confirmAux (rsize thr : Nat) : List (Nat × Nat) → List Nat → List Nat
  | [], acc => acc
  | e :: rest, acc =>
      if rsize < acc.length then acc
      else if thr ≤ e.2 then confirmAux rsize thr rest (acc ++ [e.1])
      else confirmAux rsize thr rest acc

/-- AnalyzeDeltas (lines 154-232): drop detection, decay, reinforcement,
confirmation, in that order. -/
def LeakAnalyzer.AnalyzeDeltas (s : LeakAnalyzer) (deltas : List (Nat × Int)) :
    LeakAnalyzer :=
  let susp := currentSuspects deltas
  let hist := reinforce s.ranking_size (decay s.suspected_histogram susp) susp
  { s with
    suspected_histogram := hist,
    suspected_leaks := confirmAux s.ranking_size s.score_threshold hist [] }

/-- AddSample (lines 52-68): rotate the stored snapshots, build the delta
list and analyze it. -/
def LeakAnalyzer.AddSample (s : LeakAnalyzer) (ranked_list : List (Nat × Nat)) :
    LeakAnalyzer :=
  let s1 := { s with
    prev_ranked_entries := s.ranked_entries,
    ranked_entries := ranked_list }
  s1.AnalyzeDeltas (computeDeltas s.ranking_size s.ranked_entries ranked_list)

/-- A whole monitoring session: fold AddSample over a sequence of
snapshots. -/
def runSnapshots (s : LeakAnalyzer) (snaps : List (List (Nat × Nat))) :
    LeakAnalyzer :=
  snaps.foldl LeakAnalyzer.AddSample s

/-- A sequence of analysis cycles applied directly at the delta level. -/
def runDeltas (s : LeakAnalyzer) (ds : List (List (Nat × Int))) : LeakAnalyzer :=
  ds.foldl LeakAnalyzer.AnalyzeDeltas s

/-! ## Helper lemmas: the delta list -/

theorem mem_insertDesc {e x : Nat × Int} {l : List (Nat × Int)}
    (h : x ∈ insertDesc e l) : x = e ∨ x ∈ l := by
  induction l with
  | nil => simpa [insertDesc] using h
  | cons y ys ih =>
      by_cases hle : e.2 ≤ y.2
      · simp only [insertDesc, if_pos hle, List.mem_cons] at h
        rcases h with h | h
        · exact Or.inr (by simp [h])
        · rcases ih h with h1 | h1
          · exact Or.inl h1
          · exact Or.inr (List.mem_cons_of_mem y h1)
      · simp only [insertDesc, if_neg hle, List.mem_cons] at h
        rcases h with h | h | h
        · exact Or.inl h
        · exact Or.inr (by simp [h])
        · exact Or.inr (List.mem_cons_of_mem y h)

theorem mem_rankedAdd {cap : Nat} {l : List (Nat × Int)} {v : Nat} {c : Int}
    {x : Nat × Int} (h : x ∈ RankedList.Add cap l v c) : x = (v, c) ∨ x ∈ l :=
  mem_insertDesc (List.take_subset cap _ h)

theorem computeDeltas_fold_mem (cap : Nat) (prev : List (Nat × Nat)) :
    ∀ (snap : List (Nat × Nat)) (acc : List (Nat × Int)) (v : Nat) (d : Int),
      (v, d) ∈ snap.foldl (deltaStep cap prev) acc →
      (v, d) ∈ acc ∨
        ∃ c pc, (v, c) ∈ snap ∧ GetPreviousCountForValue prev v = some pc ∧
          d = cppDelta c pc := by
  intro snap
  induction snap with
  | nil => intro acc v d h; exact Or.inl h
  | cons e rest ih =>
      intro acc v d h
      rw [List.foldl_cons] at h
      rcases ih (deltaStep cap prev acc e) v d h with h1 | h1
      · unfold deltaStep at h1
        rcases hg : GetPreviousCountForValue prev e.1 with _ | pc
        · rw [hg] at h1
          exact Or.inl h1
        · rw [hg] at h1
          rcases mem_rankedAdd h1 with h2 | h2
          · right
            have hv : v = e.1 := congrArg Prod.fst h2
            have hd : d = cppDelta e.2 pc := congrArg Prod.snd h2
            refine ⟨e.2, pc, ?_, ?_, hd⟩
            · simp [hv]
            · rw [hv]; exact hg
          · exact Or.inl h2
      · rcases h1 with ⟨c, pc, hm, hg, hd⟩
        exact Or.inr ⟨c, pc, List.mem_cons_of_mem e hm, hg, hd⟩

theorem computeDeltas_nil_prev (cap : Nat) (snap : List (Nat × Nat)) :
    computeDeltas cap [] snap = [] := by
  unfold computeDeltas
  have h : ∀ (l : List (Nat × Nat)) (acc : List (Nat × Int)),
      l.foldl (deltaStep cap []) acc = acc := by
    intro l
    induction l with
    | nil => intro acc; rfl
    | cons e rest ih =>
        intro acc
        rw [List.foldl_cons]
        have : deltaStep cap [] acc e = acc := rfl
        rw [this, ih]
  exact h snap []

/-! ## Claim theorems: C1, C2, C4, C10 -/

/-- Claim C1 (amended): every entry of the produced delta list comes from an
entry of the new snapshot whose class was found in the previous snapshot,
and its delta is the (wrapped signed) difference of the two counts; classes
absent from the previous snapshot contribute no delta entry. -/
theorem computeDeltas_mem_only_prev_classes (cap : Nat)
    (prev snap : List (Nat × Nat)) (v : Nat) (d : Int)
    (h : (v, d) ∈ computeDeltas cap prev snap) :
    ∃ c pc, (v, c) ∈ snap ∧ GetPreviousCountForValue prev v = some pc ∧
      d = cppDelta c pc := by
  rcases computeDeltas_fold_mem cap prev snap [] v d h with h1 | h1
  · cases h1
  · exact h1

/-- Witness for C1: the single delta of snapshot [(0, 15)] after [(0, 10)]
indeed traces back to the snapshot entry and the stored previous count. -/
theorem computeDeltas_mem_only_prev_classes_witness :
    ∃ c pc, ((0 : Nat), c) ∈ [((0 : Nat), (15 : Nat))] ∧
      GetPreviousCountForValue [((0 : Nat), (10 : Nat))] 0 = some pc ∧
      (5 : Int) = cppDelta c pc :=
  computeDeltas_mem_only_prev_classes 5 [(0, 10)] [(0, 15)] 0 5 (by decide)

/-- Counterexample to C1 as stated: on the very first call (previous
snapshot empty) a class absent from the previous snapshot does NOT appear
in the delta list with its current count; the delta list is empty. -/
theorem absent_class_missing_from_first_deltas :
    computeDeltas 5 [] [(0, 100)] = [] ∧
    ¬ ((0 : Nat), (100 : Int)) ∈ computeDeltas 5 [] [(0, 100)] := by
  refine ⟨computeDeltas_nil_prev 5 _, ?_⟩
  rw [computeDeltas_nil_prev 5 _]
  simp

/-- Counterexample to C2 as stated: with ranking_size 5 and threshold 2,
cycle 1 on snapshot [(0,100),(1,90),(2,10)] leaves the score table empty
(not {A:1, B:1}), and after cycle 2 on [(0,200),(1,95),(2,11)] the
confirmed list is empty (not [A]). -/
theorem example_run_spec_values_fail :
    ((LeakAnalyzer.init 5 2).AddSample
        [(0, 100), (1, 90), (2, 10)]).suspected_histogram = [] ∧
    ((LeakAnalyzer.init 5 2).AddSample
        [(0, 100), (1, 90), (2, 10)]).suspected_histogram ≠ [(0, 1), (1, 1)] ∧
    (((LeakAnalyzer.init 5 2).AddSample [(0, 100), (1, 90), (2, 10)]).AddSample
        [(0, 200), (1, 95), (2, 11)]).suspected_leaks ≠ [0] := by
  refine ⟨by decide, by decide, by decide⟩

/-- Claim C2 (amended): in the end-to-end example with ranking_size 5 and
score_threshold 2, cycle 1 (no previous snapshot) produces an empty delta
list, hence no suspects, an empty score table and an empty confirmed list;
cycle 2 produces deltas [(A,100),(B,5),(C,1)], a cliff after A, current
suspects {A}, score table {A: 1} and still an empty confirmed list. -/
theorem example_run_actual_trace :
    computeDeltas 5 [] [(0, 100), (1, 90), (2, 10)] = [] ∧
    ((LeakAnalyzer.init 5 2).AddSample
        [(0, 100), (1, 90), (2, 10)]).suspected_histogram = [] ∧
    ((LeakAnalyzer.init 5 2).AddSample
        [(0, 100), (1, 90), (2, 10)]).suspected_leaks = [] ∧
    computeDeltas 5 [(0, 100), (1, 90), (2, 10)] [(0, 200), (1, 95), (2, 11)] =
      [(0, 100), (1, 5), (2, 1)] ∧
    currentSuspects [(0, 100), (1, 5), (2, 1)] = [0] ∧
    (((LeakAnalyzer.init 5 2).AddSample [(0, 100), (1, 90), (2, 10)]).AddSample
        [(0, 200), (1, 95), (2, 11)]).suspected_histogram = [(0, 1)] ∧
    (((LeakAnalyzer.init 5 2).AddSample [(0, 100), (1, 90), (2, 10)]).AddSample
        [(0, 200), (1, 95), (2, 11)]).suspected_leaks = [] := by
  refine ⟨by decide, by decide, by decide, by decide, by decide, by decide,
    by decide⟩

/-- Counterexample to C4 as stated: a drop larger than 2^31 between two
uint32 counts wraps to a large positive delta rather than the negative
signed difference (count 3221225472 falling to 0 yields +1073741824). -/
theorem delta_wraparound_positive_example :
    computeDeltas 5 [(0, 3221225472)] [(0, 0)] = [(0, 1073741824)] ∧
    ((0 : Int) - 3221225472 ≠ (1073741824 : Int)) ∧
    (0 : Int) < 1073741824 := by
  refine ⟨by decide, by decide, by decide⟩

/-- Claim C4 (amended): for counts in uint32 range, whenever the current
count is lower than the previous one and the drop does not exceed 2^31,
the computed delta is exactly the negative signed difference
current - previous, not a wrapped positive value. -/
theorem delta_signed_of_bounded_drop (current prev : Nat)
    (hc : current < 4294967296) (hp : prev < 4294967296)
    (hlt : current < prev) (hdrop : prev - current ≤ 2147483648) :
    cppDelta current prev = (current : Int) - (prev : Int) ∧
    cppDelta current prev < 0 := by
  have hcm : current % 4294967296 = current := Nat.mod_eq_of_lt hc
  have hpm : prev % 4294967296 = prev := Nat.mod_eq_of_lt hp
  unfold cppDelta toInt32
  rw [hcm, hpm]
  have h1 : current + (4294967296 - prev) < 4294967296 := by omega
  have h2 : (current + (4294967296 - prev)) % 4294967296 =
      current + (4294967296 - prev) := Nat.mod_eq_of_lt h1
  rw [h2]
  have h3 : ¬ (current + (4294967296 - prev) < 2147483648) := by omega
  rw [if_neg h3]
  constructor
  · omega
  · omega

/-- Witness for C4: a count falling from 10 to 5 yields delta -5. -/
theorem delta_signed_of_bounded_drop_witness :
    cppDelta 5 10 = (5 : Int) - (10 : Int) ∧ cppDelta 5 10 < 0 :=
  delta_signed_of_bounded_drop 5 10 (by decide) (by decide) (by decide)
    (by decide)

/-- Claim C10: on the very first call the previous-count lookup fails for
every class, so the delta list is empty, and the current-suspect set, the
score table and the confirmed-suspect list are all empty afterwards,
whatever the snapshot contains. -/
theorem first_call_all_empty (rsize thr : Nat) (snap : List (Nat × Nat)) :
    computeDeltas rsize [] snap = [] ∧
    currentSuspects (computeDeltas rsize [] snap) = [] ∧
    ((LeakAnalyzer.init rsize thr).AddSample snap).suspected_histogram = [] ∧
    ((LeakAnalyzer.init rsize thr).AddSample snap).suspected_leaks = [] := by
  have hd : computeDeltas rsize [] snap = [] := computeDeltas_nil_prev rsize snap
  refine ⟨hd, ?_, ?_, ?_⟩
  · rw [hd]; rfl
  · show (LeakAnalyzer.AnalyzeDeltas _ (computeDeltas rsize [] snap)).suspected_histogram = []
    rw [hd]; rfl
  · show (LeakAnalyzer.AnalyzeDeltas _ (computeDeltas rsize [] snap)).suspected_leaks = []
    rw [hd]; rfl

/-! ## Helper lemmas: the current-suspect set -/

theorem mem_setInsert (w v : Nat) (s : List Nat) :
    w ∈ setInsert v s ↔ w = v ∨ w ∈ s := by
  induction s with
  | nil => simp [setInsert]
  | cons x xs ih =>
      unfold setInsert
      by_cases h1 : v < x
      · rw [if_pos h1]
        simp only [List.mem_cons]
      · rw [if_neg h1]
        by_cases h2 : v = x
        · rw [if_pos h2]
          subst h2
          simp only [List.mem_cons]
          tauto
        · rw [if_neg h2]
          simp only [List.mem_cons, ih]
          tauto

theorem mem_foldl_setInsert :
    ∀ (xs acc : List Nat) (w : Nat),
      w ∈ xs.foldl (fun s v => setInsert v s) acc ↔ w ∈ acc ∨ w ∈ xs := by
  intro xs
  induction xs with
  | nil => simp
  | cons x rest ih =>
      intro acc w
      rw [List.foldl_cons, ih, mem_setInsert]
      simp only [List.mem_cons]
      tauto

theorem findDropAux_none :
    ∀ (l : List (Nat × Int)) (n : Nat),
      (∀ (j : Nat) (a b : Nat × Int), l[j]? = some a → l[j + 1]? = some b →
        ¬ (2 * b.2 < a.2)) →
      findDropAux l n = none := by
  intro l
  induction l with
  | nil => intro n _; rfl
  | cons x t ih =>
      intro n h
      cases t with
      | nil => rfl
      | cons y rest =>
          unfold findDropAux
          have h0 : ¬ (2 * y.2 < x.2) := h 0 x y (by simp) (by simp)
          rw [if_neg h0]
          apply ih
          intro j a b ha hb
          exact h (j + 1) a b (by simpa using ha) (by simpa using hb)

theorem findDropAux_min :
    ∀ (i : Nat) (l : List (Nat × Int)) (n : Nat) (a b : Nat × Int),
      l[i]? = some a → l[i + 1]? = some b → 2 * b.2 < a.2 →
      (∀ (j : Nat) (c d : Nat × Int), j < i → l[j]? = some c →
        l[j + 1]? = some d → ¬ (2 * d.2 < c.2)) →
      findDropAux l n = some (n + i + 1) := by
  intro i
  induction i with
  | zero =>
      intro l n a b ha hb hd _
      cases l with
      | nil => simp at ha
      | cons x t =>
          cases t with
          | nil => simp at hb
          | cons y rest =>
              have hax : x = a := by simpa using ha
              have hby : y = b := by simpa using hb
              subst hax
              subst hby
              unfold findDropAux
              rw [if_pos hd]
  | succ i ih =>
      intro l n a b ha hb hd hmin
      cases l with
      | nil => simp at ha
      | cons x t =>
          cases t with
          | nil => simp at ha
          | cons y rest =>
              have h0 : ¬ (2 * y.2 < x.2) :=
                hmin 0 x y (Nat.succ_pos i) (by simp) (by simp)
              unfold findDropAux
              rw [if_neg h0]
              have hmin2 : ∀ (j : Nat) (c d : Nat × Int), j < i →
                  (y :: rest)[j]? = some c → (y :: rest)[j + 1]? = some d →
                  ¬ (2 * d.2 < c.2) := by
                intro j c d hj hc hd2
                exact hmin (j + 1) c d (by omega) (by simpa using hc)
                  (by simpa using hd2)
              have hres := ih (y :: rest) (n + 1) a b (by simpa using ha)
                (by simpa using hb) hd hmin2
              have harith : n + 1 + i + 1 = n + (i + 1) + 1 := by omega
              rw [hres, harith]

theorem findDrop_eq_min (l : List (Nat × Int)) (i : Nat) (a b x : Nat × Int)
    (hx : l.head? = some x) (hpos : 0 < x.2)
    (ha : l[i]? = some a) (hb : l[i + 1]? = some b) (hd : 2 * b.2 < a.2)
    (hmin : ∀ (j : Nat) (c d : Nat × Int), j < i → l[j]? = some c →
      l[j + 1]? = some d → ¬ (2 * d.2 < c.2)) :
    findDrop l = some (i + 1) := by
  cases l with
  | nil => simp at hx
  | cons u t =>
      cases t with
      | nil =>
          cases i with
          | zero => simp at hb
          | succ k => simp at ha
      | cons y rest =>
          have hux : u = x := by simpa using hx
          have hcond : 0 < u.2 := by rw [hux]; exact hpos
          have haux := findDropAux_min i (u :: y :: rest) 0 a b ha hb hd hmin
          have hdef : findDrop (u :: y :: rest) =
              if 0 < u.2 then findDropAux (u :: y :: rest) 0 else none := rfl
          rw [hdef, if_pos hcond, haux]
          have : 0 + i + 1 = i + 1 := by omega
          rw [this]

/-- Claim C3: the current-suspect set is the set of classes at positions
0..i for the smallest i whose adjacent pair drops by more than half; it is
empty for lists with fewer than two entries, empty whenever the first delta
is nonpositive (regardless of later cliffs), and empty when no adjacent
pair drops - classes are never implicitly all suspected. -/
theorem currentSuspects_characterization :
    (∀ l : List (Nat × Int), l.length < 2 → currentSuspects l = []) ∧
    (∀ (l : List (Nat × Int)) (x : Nat × Int), l.head? = some x → x.2 ≤ 0 →
      currentSuspects l = []) ∧
    (∀ l : List (Nat × Int),
      (∀ (i : Nat) (a b : Nat × Int), l[i]? = some a → l[i + 1]? = some b →
        ¬ (2 * b.2 < a.2)) →
      currentSuspects l = []) ∧
    (∀ (l : List (Nat × Int)) (i : Nat) (a b x : Nat × Int),
      l.head? = some x → 0 < x.2 →
      l[i]? = some a → l[i + 1]? = some b → 2 * b.2 < a.2 →
      (∀ (j : Nat) (c d : Nat × Int), j < i → l[j]? = some c →
        l[j + 1]? = some d → ¬ (2 * d.2 < c.2)) →
      ∀ w : Nat, w ∈ currentSuspects l ↔ w ∈ (l.take (i + 1)).map Prod.fst) := by
  refine ⟨?short, ?nonpos, ?nodrop, ?drop⟩
  case short =>
    intro l h
    cases l with
    | nil => rfl
    | cons x t =>
        cases t with
        | nil => rfl
        | cons y rest => simp at h; omega
  case nonpos =>
    intro l x hx hle
    cases l with
    | nil => rfl
    | cons u t =>
        cases t with
        | nil => rfl
        | cons y rest =>
            have hux : u = x := by simpa using hx
            have hcond : ¬ 0 < u.2 := by rw [hux]; omega
            have hdef : findDrop (u :: y :: rest) =
                if 0 < u.2 then findDropAux (u :: y :: rest) 0 else none := rfl
            unfold currentSuspects
            rw [hdef, if_neg hcond]
  case nodrop =>
    intro l h
    cases l with
    | nil => rfl
    | cons u t =>
        cases t with
        | nil => rfl
        | cons y rest =>
            have hdef : findDrop (u :: y :: rest) =
                if 0 < u.2 then findDropAux (u :: y :: rest) 0 else none := rfl
            unfold currentSuspects
            rw [hdef]
            by_cases hcond : 0 < u.2
            · rw [if_pos hcond, findDropAux_none (u :: y :: rest) 0 h]
            · rw [if_neg hcond]
  case drop =>
    intro l i a b x hx hpos ha hb hd hmin w
    have hfd := findDrop_eq_min l i a b x hx hpos ha hb hd hmin
    unfold currentSuspects
    rw [hfd]
    rw [mem_foldl_setInsert]
    simp

/-- Witness for C3: on the delta list [(5, 10), (7, 1)] the drop is at the
first pair, so exactly the class at position 0 is suspected. -/
theorem currentSuspects_characterization_witness :
    (5 : Nat) ∈ currentSuspects [((5 : Nat), (10 : Int)), (7, 1)] ↔
      (5 : Nat) ∈ (([((5 : Nat), (10 : Int)), (7, 1)]).take 1).map Prod.fst :=
  currentSuspects_characterization.2.2.2 [(5, 10), (7, 1)] 0 (5, 10) (7, 1)
    (5, 10) (by decide) (by decide) (by decide) (by decide) (by decide)
    (by intro j c d hj _ _; omega) 5

/-! ## Helper lemmas: the suspicion-score table -/

/-- Unique keys in the score table (a std::map invariant). -/
def NodupKeys (hist : List (Nat × Nat)) : Prop := (hist.map Prod.fst).Nodup

theorem lookupScore_cons (e : Nat × Nat) (rest : List (Nat × Nat)) (v : Nat) :
    lookupScore (e :: rest) v =
      if e.1 = v then some e.2 else lookupScore rest v := rfl

theorem lookupScore_eq_none_iff (hist : List (Nat × Nat)) (v : Nat) :
    lookupScore hist v = none ↔ v ∉ hist.map Prod.fst := by
  induction hist with
  | nil => simp [lookupScore]
  | cons e rest ih =>
      unfold lookupScore
      by_cases h : e.1 = v
      · simp [h]
      · simp [h, ih]
        tauto

theorem lookupScore_mem {hist : List (Nat × Nat)} {v s : Nat}
    (h : lookupScore hist v = some s) : (v, s) ∈ hist := by
  induction hist with
  | nil => simp [lookupScore] at h
  | cons e rest ih =>
      unfold lookupScore at h
      by_cases he : e.1 = v
      · rw [if_pos he] at h
        have hs : e.2 = s := by injection h
        have hev : e = (v, s) := by rw [← he, ← hs]
        rw [← hev]
        exact List.mem_cons_self e rest
      · rw [if_neg he] at h
        exact List.mem_cons_of_mem e (ih h)

theorem mem_lookupScore {hist : List (Nat × Nat)} {v s : Nat}
    (hnd : NodupKeys hist) (h : (v, s) ∈ hist) : lookupScore hist v = some s := by
  induction hist with
  | nil => simp at h
  | cons e rest ih =>
      unfold NodupKeys at hnd
      rw [List.map_cons, List.nodup_cons] at hnd
      rcases List.mem_cons.mp h with h1 | h1
      · rw [← h1]
        unfold lookupScore
        rw [if_pos rfl]
      · have hne : e.1 ≠ v := by
          intro hc
          exact hnd.1 (hc ▸ (List.mem_map.mpr ⟨(v, s), h1, rfl⟩))
        unfold lookupScore
        rw [if_neg hne]
        exact ih hnd.2 h1

theorem contains_true_iff (l : List Nat) (x : Nat) :
    (l.contains x) = true ↔ x ∈ l := by simp

theorem lookupScore_decay_of_mem (hist : List (Nat × Nat)) (susp : List Nat)
    (v : Nat) (hv : v ∈ susp) :
    lookupScore (decay hist susp) v = lookupScore hist v := by
  induction hist with
  | nil => rfl
  | cons e rest ih =>
      unfold decay at ih ⊢
      rw [List.filter_cons]
      by_cases hk : (susp.contains e.1) = true
      · rw [if_pos (by simpa using hk)]
        unfold lookupScore
        by_cases he : e.1 = v
        · rw [if_pos he, if_pos he]
        · rw [if_neg he, if_neg he]
          exact ih
      · rw [if_neg (by simpa using hk)]
        have he : e.1 ≠ v := by
          intro hc
          exact hk ((contains_true_iff susp e.1).mpr (hc ▸ hv))
        rw [ih, lookupScore_cons, if_neg he]

theorem decay_keys_subset (hist : List (Nat × Nat)) (susp : List Nat) :
    ∀ e ∈ decay hist susp, e ∈ hist ∧ e.1 ∈ susp := by
  intro e he
  unfold decay at he
  have h1 := List.of_mem_filter he
  exact ⟨List.mem_of_mem_filter he, (contains_true_iff susp e.1).mp h1⟩

theorem lookupScore_decay_of_not_mem (hist : List (Nat × Nat)) (susp : List Nat)
    (v : Nat) (hv : v ∉ susp) :
    lookupScore (decay hist susp) v = none := by
  rw [lookupScore_eq_none_iff]
  intro hc
  rcases List.mem_map.mp hc with ⟨e, he, hev⟩
  exact hv (hev ▸ (decay_keys_subset hist susp e he).2)

theorem decay_sublist (hist : List (Nat × Nat)) (susp : List Nat) :
    List.Sublist (decay hist susp) hist := List.filter_sublist hist

theorem decay_length_le (hist : List (Nat × Nat)) (susp : List Nat) :
    (decay hist susp).length ≤ hist.length := List.length_filter_le _ hist

theorem decay_nodup {hist : List (Nat × Nat)} (susp : List Nat)
    (hnd : NodupKeys hist) : NodupKeys (decay hist susp) :=
  List.Nodup.sublist (List.Sublist.map Prod.fst (decay_sublist hist susp)) hnd

theorem incr_keys (v : Nat) (hist : List (Nat × Nat)) :
    (incr v hist).map Prod.fst = hist.map Prod.fst := by
  induction hist with
  | nil => rfl
  | cons e rest ih =>
      unfold incr at ih ⊢
      rw [List.map_cons, List.map_cons, ih]
      by_cases he : e.1 = v
      · rw [if_pos he]
        simp
      · rw [if_neg he]
        simp

theorem incr_length (v : Nat) (hist : List (Nat × Nat)) :
    (incr v hist).length = hist.length := List.length_map hist _

theorem lookupScore_incr_self (v : Nat) (hist : List (Nat × Nat)) :
    lookupScore (incr v hist) v = (lookupScore hist v).map (· + 1) := by
  induction hist with
  | nil => rfl
  | cons e rest ih =>
      unfold incr at ih ⊢
      rw [List.map_cons]
      by_cases he : e.1 = v
      · rw [if_pos he]
        unfold lookupScore
        rw [if_pos he, if_pos he]
        rfl
      · rw [if_neg he]
        unfold lookupScore
        rw [if_neg he, if_neg he]
        exact ih

theorem lookupScore_incr_other (v u : Nat) (hist : List (Nat × Nat))
    (hne : u ≠ v) : lookupScore (incr v hist) u = lookupScore hist u := by
  induction hist with
  | nil => rfl
  | cons e rest ih =>
      unfold incr at ih ⊢
      rw [List.map_cons]
      by_cases he : e.1 = v
      · rw [if_pos he]
        have hu : ¬ e.1 = u := by rw [he]; exact fun hc => hne hc.symm
        unfold lookupScore
        rw [if_neg hu, if_neg hu]
        exact ih
      · rw [if_neg he]
        unfold lookupScore
        by_cases hu : e.1 = u
        · rw [if_pos hu, if_pos hu]
        · rw [if_neg hu, if_neg hu]
          exact ih

theorem lookupScore_mapInsert_self (v c : Nat) :
    ∀ hist : List (Nat × Nat), lookupScore (mapInsert v c hist) v = some c := by
  intro hist
  induction hist with
  | nil => simp [mapInsert, lookupScore]
  | cons e rest ih =>
      unfold mapInsert
      by_cases h1 : v < e.1
      · rw [if_pos h1, lookupScore_cons, if_pos rfl]
      · rw [if_neg h1]
        by_cases h2 : v = e.1
        · rw [if_pos h2, lookupScore_cons, if_pos rfl]
        · have hne : e.1 ≠ v := fun hc => h2 hc.symm
          rw [if_neg h2, lookupScore_cons, if_neg hne]
          exact ih

theorem lookupScore_mapInsert_other (v c u : Nat) (hne : u ≠ v) :
    ∀ hist : List (Nat × Nat),
      lookupScore (mapInsert v c hist) u = lookupScore hist u := by
  intro hist
  induction hist with
  | nil =>
      show lookupScore [(v, c)] u = lookupScore [] u
      rw [lookupScore_cons, if_neg (show ¬ (v, c).1 = u from fun hc => hne hc.symm)]
  | cons e rest ih =>
      unfold mapInsert
      by_cases h1 : v < e.1
      · rw [if_pos h1, lookupScore_cons]
        rw [if_neg (show ¬ (v, c).1 = u from fun hc => hne hc.symm)]
      · rw [if_neg h1]
        by_cases h2 : v = e.1
        · rw [if_pos h2, lookupScore_cons, lookupScore_cons]
          rw [if_neg (show ¬ (v, c).1 = u from fun hc => hne hc.symm)]
          rw [if_neg (h2 ▸ (show ¬ v = u from fun hc => hne hc.symm))]
        · rw [if_neg h2, lookupScore_cons, lookupScore_cons, ih]
  
theorem mapInsert_length_le (v c : Nat) :
    ∀ hist : List (Nat × Nat), (mapInsert v c hist).length ≤ hist.length + 1 := by
  intro hist
  induction hist with
  | nil => simp [mapInsert]
  | cons e rest ih =>
      unfold mapInsert
      by_cases h1 : v < e.1
      · rw [if_pos h1]; simp
      · rw [if_neg h1]
        by_cases h2 : v = e.1
        · rw [if_pos h2]; simp
        · rw [if_neg h2]
          simp only [List.length_cons]
          omega

theorem mapInsert_keys_subset (v c u : Nat) :
    ∀ hist : List (Nat × Nat), u ∈ (mapInsert v c hist).map Prod.fst →
      u = v ∨ u ∈ hist.map Prod.fst := by
  intro hist
  induction hist with
  | nil => simp [mapInsert]
  | cons e rest ih =>
      intro h
      unfold mapInsert at h
      by_cases h1 : v < e.1
      · rw [if_pos h1] at h
        simpa using h
      · rw [if_neg h1] at h
        by_cases h2 : v = e.1
        · rw [if_pos h2] at h
          rcases (by simpa using h : u = v ∨ u ∈ rest.map Prod.fst) with h3 | h3
          · exact Or.inl h3
          · exact Or.inr (by simp [h3])
        · rw [if_neg h2] at h
          rcases (by simpa using h : u = e.1 ∨ u ∈ (mapInsert v c rest).map Prod.fst)
              with h3 | h3
          · exact Or.inr (by simp [h3])
          · rcases ih h3 with h4 | h4
            · exact Or.inl h4
            · exact Or.inr (by simp [h4])

theorem mapInsert_keys_mono (v c u : Nat) :
    ∀ hist : List (Nat × Nat), u ∈ hist.map Prod.fst →
      u ∈ (mapInsert v c hist).map Prod.fst := by
  intro hist
  induction hist with
  | nil => simp
  | cons e rest ih =>
      intro h
      unfold mapInsert
      rcases (by simpa using h : u = e.1 ∨ u ∈ rest.map Prod.fst) with h3 | h3
      · by_cases h1 : v < e.1
        · rw [if_pos h1]; simp [h3]
        · rw [if_neg h1]
          by_cases h2 : v = e.1
          · rw [if_pos h2]
            simp [h3, h2]
          · rw [if_neg h2]; simp [h3]
      · by_cases h1 : v < e.1
        · rw [if_pos h1]; simp [h3]
        · rw [if_neg h1]
          by_cases h2 : v = e.1
          · rw [if_pos h2]; simp [h3]
          · rw [if_neg h2]
            simp only [List.map_cons, List.mem_cons]
            exact Or.inr (ih h3)

theorem mapInsert_nodup (v c : Nat) :
    ∀ hist : List (Nat × Nat), NodupKeys hist → v ∉ hist.map Prod.fst →
      NodupKeys (mapInsert v c hist) := by
  intro hist
  induction hist with
  | nil => intro _ _; simp [mapInsert, NodupKeys]
  | cons e rest ih =>
      intro hnd hv
      have hv1 : v ≠ e.1 := by
        intro hc
        exact hv (by simp [hc])
      have hv2 : v ∉ rest.map Prod.fst := by
        intro hc
        exact hv (by simp [hc])
      unfold NodupKeys at hnd
      rw [List.map_cons, List.nodup_cons] at hnd
      unfold mapInsert
      by_cases h1 : v < e.1
      · rw [if_pos h1]
        unfold NodupKeys
        simp only [List.map_cons, List.nodup_cons]
        refine ⟨?_, hnd.1, hnd.2⟩
        simp only [List.mem_cons]
        push_neg
        exact ⟨hv1, hv2⟩
      · rw [if_neg h1, if_neg (fun hc => hv1 hc)]
        unfold NodupKeys
        simp only [List.map_cons, List.nodup_cons]
        constructor
        · intro hc
          rcases mapInsert_keys_subset v c e.1 rest hc with h3 | h3
          · exact hv1 h3.symm
          · exact hnd.1 h3
        · exact ih hnd.2 hv2

theorem reinforceStep_of_some {hist : List (Nat × Nat)} {v s : Nat}
    (rsize : Nat) (hl : lookupScore hist v = some s) :
    reinforceStep rsize hist v = incr v hist := by
  unfold reinforceStep
  rw [hl]

theorem reinforceStep_of_none {hist : List (Nat × Nat)} {v : Nat}
    (rsize : Nat) (hl : lookupScore hist v = none) :
    reinforceStep rsize hist v =
      if hist.length < rsize then mapInsert v 1 hist else hist := by
  unfold reinforceStep
  rw [hl]

theorem reinforce_cons (rsize : Nat) (hist : List (Nat × Nat)) (u : Nat)
    (rest : List Nat) :
    reinforce rsize hist (u :: rest) =
      reinforce rsize (reinforceStep rsize hist u) rest := rfl

theorem reinforceStep_lookup_other (rsize : Nat) (hist : List (Nat × Nat))
    (v u : Nat) (hne : u ≠ v) :
    lookupScore (reinforceStep rsize hist v) u = lookupScore hist u := by
  rcases hl : lookupScore hist v with _ | s
  · rw [reinforceStep_of_none rsize hl]
    by_cases hr : hist.length < rsize
    · rw [if_pos hr, lookupScore_mapInsert_other v 1 u hne]
    · rw [if_neg hr]
  · rw [reinforceStep_of_some rsize hl, lookupScore_incr_other v u hist hne]

theorem reinforceStep_length (rsize : Nat) (hist : List (Nat × Nat)) (v : Nat)
    (h : hist.length ≤ rsize) : (reinforceStep rsize hist v).length ≤ rsize := by
  rcases hl : lookupScore hist v with _ | s
  · rw [reinforceStep_of_none rsize hl]
    by_cases hr : hist.length < rsize
    · rw [if_pos hr]
      have := mapInsert_length_le v 1 hist
      omega
    · rw [if_neg hr]
      exact h
  · rw [reinforceStep_of_some rsize hl, incr_length]
    exact h

theorem reinforceStep_keys_mono (rsize : Nat) (hist : List (Nat × Nat))
    (v u : Nat) (h : u ∈ hist.map Prod.fst) :
    u ∈ (reinforceStep rsize hist v).map Prod.fst := by
  rcases hl : lookupScore hist v with _ | s
  · rw [reinforceStep_of_none rsize hl]
    by_cases hr : hist.length < rsize
    · rw [if_pos hr]
      exact mapInsert_keys_mono v 1 u hist h
    · rw [if_neg hr]
      exact h
  · rw [reinforceStep_of_some rsize hl, incr_keys]
    exact h

theorem reinforceStep_keys_subset (rsize : Nat) (hist : List (Nat × Nat))
    (v u : Nat) (h : u ∈ (reinforceStep rsize hist v).map Prod.fst) :
    u = v ∨ u ∈ hist.map Prod.fst := by
  rcases hl : lookupScore hist v with _ | s
  · rw [reinforceStep_of_none rsize hl] at h
    by_cases hr : hist.length < rsize
    · rw [if_pos hr] at h
      exact mapInsert_keys_subset v 1 u hist h
    · rw [if_neg hr] at h
      exact Or.inr h
  · rw [reinforceStep_of_some rsize hl, incr_keys] at h
    exact Or.inr h

theorem reinforceStep_keys_full (rsize : Nat) (hist : List (Nat × Nat)) (v : Nat)
    (h : rsize ≤ hist.length) :
    (reinforceStep rsize hist v).map Prod.fst = hist.map Prod.fst := by
  rcases hl : lookupScore hist v with _ | s
  · rw [reinforceStep_of_none rsize hl, if_neg (by omega)]
  · rw [reinforceStep_of_some rsize hl, incr_keys]

theorem reinforceStep_nodup (rsize : Nat) (hist : List (Nat × Nat)) (v : Nat)
    (hnd : NodupKeys hist) : NodupKeys (reinforceStep rsize hist v) := by
  rcases hl : lookupScore hist v with _ | s
  · rw [reinforceStep_of_none rsize hl]
    by_cases hr : hist.length < rsize
    · rw [if_pos hr]
      exact mapInsert_nodup v 1 hist hnd ((lookupScore_eq_none_iff hist v).mp hl)
    · rw [if_neg hr]
      exact hnd
  · rw [reinforceStep_of_some rsize hl]
    unfold NodupKeys
    rw [incr_keys]
    exact hnd

theorem reinforce_lookup_not_mem (rsize v : Nat) :
    ∀ (susp : List Nat) (hist : List (Nat × Nat)), v ∉ susp →
      lookupScore (reinforce rsize hist susp) v = lookupScore hist v := by
  intro susp
  induction susp with
  | nil => intro hist _; rfl
  | cons u rest ih =>
      intro hist hv
      have hvu : v ≠ u := fun hc => hv (by simp [hc])
      have hvr : v ∉ rest := fun hc => hv (by simp [hc])
      rw [reinforce_cons, ih _ hvr,
        reinforceStep_lookup_other rsize hist u v hvu]

theorem reinforce_lookup_mem_some (rsize v : Nat) :
    ∀ (susp : List Nat) (hist : List (Nat × Nat)) (s : Nat), susp.Nodup →
      v ∈ susp → lookupScore hist v = some s →
      lookupScore (reinforce rsize hist susp) v = some (s + 1) := by
  intro susp
  induction susp with
  | nil => intro hist s _ hv _; simp at hv
  | cons u rest ih =>
      intro hist s hnd hv hl
      rw [List.nodup_cons] at hnd
      rw [reinforce_cons]
      by_cases huv : u = v
      · subst huv
        have hstep : lookupScore (reinforceStep rsize hist u) u = some (s + 1) := by
          rw [reinforceStep_of_some rsize hl, lookupScore_incr_self, hl]
          rfl
        rw [reinforce_lookup_not_mem rsize u rest _ hnd.1, hstep]
      · have hvrest : v ∈ rest := by
          rcases List.mem_cons.mp hv with h | h
          · exact absurd h.symm huv
          · exact h
        have h2 : lookupScore (reinforceStep rsize hist u) v = some s := by
          rw [reinforceStep_lookup_other rsize hist u v (fun hc => huv hc.symm)]
          exact hl
        exact ih (reinforceStep rsize hist u) s hnd.2 hvrest h2

theorem reinforce_lookup_fresh (rsize v : Nat) :
    ∀ (susp : List Nat) (hist : List (Nat × Nat)) (c : Nat), susp.Nodup →
      lookupScore hist v = none →
      lookupScore (reinforce rsize hist susp) v = some c → c = 1 := by
  intro susp
  induction susp with
  | nil =>
      intro hist c _ hl hres
      rw [show reinforce rsize hist [] = hist from rfl, hl] at hres
      cases hres
  | cons u rest ih =>
      intro hist c hnd hl hres
      rw [List.nodup_cons] at hnd
      rw [reinforce_cons] at hres
      by_cases huv : u = v
      · subst huv
        by_cases hr : hist.length < rsize
        · have hstep : lookupScore (reinforceStep rsize hist u) u = some 1 := by
            rw [reinforceStep_of_none rsize hl, if_pos hr,
              lookupScore_mapInsert_self]
          rw [reinforce_lookup_not_mem rsize u rest _ hnd.1, hstep] at hres
          injection hres with h
          exact h.symm
        · have hstep : reinforceStep rsize hist u = hist := by
            rw [reinforceStep_of_none rsize hl, if_neg hr]
          rw [hstep, reinforce_lookup_not_mem rsize u rest hist hnd.1, hl] at hres
          cases hres
      · have h2 : lookupScore (reinforceStep rsize hist u) v = none := by
          rw [reinforceStep_lookup_other rsize hist u v (fun hc => huv hc.symm)]
          exact hl
        exact ih (reinforceStep rsize hist u) c hnd.2 h2 hres

theorem reinforce_length (rsize : Nat) :
    ∀ (susp : List Nat) (hist : List (Nat × Nat)), hist.length ≤ rsize →
      (reinforce rsize hist susp).length ≤ rsize := by
  intro susp
  induction susp with
  | nil => intro hist h; exact h
  | cons u rest ih =>
      intro hist h
      rw [reinforce_cons]
      exact ih _ (reinforceStep_length rsize hist u h)

theorem reinforce_keys_mono (rsize u : Nat) :
    ∀ (susp : List Nat) (hist : List (Nat × Nat)), u ∈ hist.map Prod.fst →
      u ∈ (reinforce rsize hist susp).map Prod.fst := by
  intro susp
  induction susp with
  | nil => intro hist h; exact h
  | cons w rest ih =>
      intro hist h
      rw [reinforce_cons]
      exact ih _ (reinforceStep_keys_mono rsize hist w u h)

theorem reinforce_keys_subset (rsize u : Nat) :
    ∀ (susp : List Nat) (hist : List (Nat × Nat)),
      u ∈ (reinforce rsize hist susp).map Prod.fst →
      u ∈ hist.map Prod.fst ∨ u ∈ susp := by
  intro susp
  induction susp with
  | nil => intro hist h; exact Or.inl h
  | cons w rest ih =>
      intro hist h
      rw [reinforce_cons] at h
      rcases ih _ h with h1 | h1
      · rcases reinforceStep_keys_subset rsize hist w u h1 with h2 | h2
        · exact Or.inr (by simp [h2])
        · exact Or.inl h2
      · exact Or.inr (by simp [h1])

theorem reinforce_keys_full (rsize : Nat) :
    ∀ (susp : List Nat) (hist : List (Nat × Nat)), rsize ≤ hist.length →
      (reinforce rsize hist susp).map Prod.fst = hist.map Prod.fst := by
  intro susp
  induction susp with
  | nil => intro hist _; rfl
  | cons w rest ih =>
      intro hist h
      rw [reinforce_cons]
      have hkeys := reinforceStep_keys_full rsize hist w h
      have hlen : (reinforceStep rsize hist w).length = hist.length := by
        have h1 : ((reinforceStep rsize hist w).map Prod.fst).length =
            ((hist.map Prod.fst)).length := by rw [hkeys]
        simpa using h1
      rw [ih _ (by omega), hkeys]

theorem reinforce_nodup (rsize : Nat) :
    ∀ (susp : List Nat) (hist : List (Nat × Nat)), NodupKeys hist →
      NodupKeys (reinforce rsize hist susp) := by
  intro susp
  induction susp with
  | nil => intro hist h; exact h
  | cons w rest ih =>
      intro hist h
      rw [reinforce_cons]
      exact ih _ (reinforceStep_nodup rsize hist w h)

/-! ## Helper lemmas: the confirmation loop -/

theorem confirmAux_append (rsize thr : Nat) :
    ∀ (hist : List (Nat × Nat)) (acc : List Nat),
      ∃ t, confirmAux rsize thr hist acc = acc ++ t ∧
        List.Sublist t (hist.map Prod.fst) := by
  intro hist
  induction hist with
  | nil =>
      intro acc
      exact ⟨[], by simp [confirmAux], by simp⟩
  | cons e rest ih =>
      intro acc
      unfold confirmAux
      by_cases h1 : rsize < acc.length
      · rw [if_pos h1]
        exact ⟨[], by simp, by simp⟩
      · rw [if_neg h1]
        by_cases h2 : thr ≤ e.2
        · rw [if_pos h2]
          rcases ih (acc ++ [e.1]) with ⟨t, ht, hs⟩
          refine ⟨e.1 :: t, ?_, ?_⟩
          · rw [ht]
            simp
          · rw [List.map_cons]
            exact List.Sublist.cons₂ e.1 hs
        · rw [if_neg h2]
          rcases ih acc with ⟨t, ht, hs⟩
          refine ⟨t, ht, ?_⟩
          rw [List.map_cons]
          exact List.Sublist.cons e.1 hs

theorem confirmAux_length (rsize thr : Nat) :
    ∀ (hist : List (Nat × Nat)) (acc : List Nat), acc.length ≤ rsize + 1 →
      (confirmAux rsize thr hist acc).length ≤ rsize + 1 := by
  intro hist
  induction hist with
  | nil => intro acc h; exact h
  | cons e rest ih =>
      intro acc h
      unfold confirmAux
      by_cases h1 : rsize < acc.length
      · rw [if_pos h1]
        exact h
      · rw [if_neg h1]
        by_cases h2 : thr ≤ e.2
        · rw [if_pos h2]
          apply ih
          simp only [List.length_append, List.length_singleton]
          omega
        · rw [if_neg h2]
          exact ih acc h

theorem confirmAux_mem (rsize thr : Nat) :
    ∀ (hist : List (Nat × Nat)) (acc : List Nat) (v : Nat),
      v ∈ confirmAux rsize thr hist acc →
      v ∈ acc ∨ ∃ p, p ∈ hist ∧ p.1 = v ∧ thr ≤ p.2 := by
  intro hist
  induction hist with
  | nil => intro acc v h; exact Or.inl h
  | cons e rest ih =>
      intro acc v h
      unfold confirmAux at h
      by_cases h1 : rsize < acc.length
      · rw [if_pos h1] at h
        exact Or.inl h
      · rw [if_neg h1] at h
        by_cases h2 : thr ≤ e.2
        · rw [if_pos h2] at h
          rcases ih (acc ++ [e.1]) v h with h3 | ⟨p, hp, hpv, hpt⟩
          · rcases List.mem_append.mp h3 with h4 | h4
            · exact Or.inl h4
            · refine Or.inr ⟨e, List.mem_cons_self e rest, ?_, h2⟩
              have : v = e.1 := by simpa using h4
              exact this.symm
          · exact Or.inr ⟨p, List.mem_cons_of_mem e hp, hpv, hpt⟩
        · rw [if_neg h2] at h
          rcases ih acc v h with h3 | ⟨p, hp, hpv, hpt⟩
          · exact Or.inl h3
          · exact Or.inr ⟨p, List.mem_cons_of_mem e hp, hpv, hpt⟩

theorem confirmAux_mem_of_lookup (rsize thr : Nat) :
    ∀ (hist : List (Nat × Nat)) (acc : List Nat) (v sc : Nat),
      hist.length + acc.length ≤ rsize → lookupScore hist v = some sc →
      thr ≤ sc → v ∈ confirmAux rsize thr hist acc := by
  intro hist
  induction hist with
  | nil => intro acc v sc _ hl _; cases hl
  | cons e rest ih =>
      intro acc v sc hlen hl hthr
      have hbreak : ¬ rsize < acc.length := by
        simp only [List.length_cons] at hlen
        omega
      unfold confirmAux
      rw [if_neg hbreak]
      by_cases he : e.1 = v
      · rw [lookupScore_cons, if_pos he] at hl
        have hsc : e.2 = sc := by injection hl
        rw [if_pos (show thr ≤ e.2 by omega)]
        rcases confirmAux_append rsize thr rest (acc ++ [e.1]) with ⟨t, ht, _⟩
        rw [ht]
        apply List.mem_append_left
        apply List.mem_append_right
        simp [he]
      · rw [lookupScore_cons, if_neg he] at hl
        by_cases h2 : thr ≤ e.2
        · rw [if_pos h2]
          apply ih (acc ++ [e.1]) v sc ?lenH hl hthr
          case lenH =>
            simp only [List.length_append, List.length_singleton,
              List.length_cons, List.length_nil] at hlen ⊢
            omega
        · rw [if_neg h2]
          apply ih acc v sc ?lenH2 hl hthr
          case lenH2 =>
            simp only [List.length_cons] at hlen
            omega

theorem confirm_mem_iff (rsize thr : Nat) (hist : List (Nat × Nat)) (v : Nat)
    (hnd : NodupKeys hist) (hlen : hist.length ≤ rsize) :
    v ∈ confirmAux rsize thr hist [] ↔
      ∃ sc, lookupScore hist v = some sc ∧ thr ≤ sc := by
  constructor
  · intro h
    rcases confirmAux_mem rsize thr hist [] v h with h1 | ⟨p, hp, hpv, hpt⟩
    · cases h1
    · have hm : (v, p.2) ∈ hist := by
        rw [← hpv]
        exact hp
      exact ⟨p.2, mem_lookupScore hnd hm, hpt⟩
  · intro h
    rcases h with ⟨sc, hl, ht⟩
    exact confirmAux_mem_of_lookup rsize thr hist [] v sc (by simpa using hlen)
      hl ht

/-! ## Helper lemmas: one analysis cycle -/

theorem analyzeDeltas_histogram (s : LeakAnalyzer) (d : List (Nat × Int)) :
    (s.AnalyzeDeltas d).suspected_histogram =
      reinforce s.ranking_size
        (decay s.suspected_histogram (currentSuspects d))
        (currentSuspects d) := rfl

theorem analyzeDeltas_leaks (s : LeakAnalyzer) (d : List (Nat × Int)) :
    (s.AnalyzeDeltas d).suspected_leaks =
      confirmAux s.ranking_size s.score_threshold
        (s.AnalyzeDeltas d).suspected_histogram [] := rfl

theorem analyzeDeltas_ranking_size (s : LeakAnalyzer) (d : List (Nat × Int)) :
    (s.AnalyzeDeltas d).ranking_size = s.ranking_size := rfl

theorem analyzeDeltas_score_threshold (s : LeakAnalyzer) (d : List (Nat × Int)) :
    (s.AnalyzeDeltas d).score_threshold = s.score_threshold := rfl

theorem analyzeDeltas_hist_len (s : LeakAnalyzer) (d : List (Nat × Int))
    (h : s.suspected_histogram.length ≤ s.ranking_size) :
    (s.AnalyzeDeltas d).suspected_histogram.length ≤ s.ranking_size := by
  rw [analyzeDeltas_histogram]
  exact reinforce_length s.ranking_size (currentSuspects d) _
    (le_trans (decay_length_le _ _) h)

theorem analyzeDeltas_nodup (s : LeakAnalyzer) (d : List (Nat × Int))
    (h : NodupKeys s.suspected_histogram) :
    NodupKeys (s.AnalyzeDeltas d).suspected_histogram := by
  rw [analyzeDeltas_histogram]
  exact reinforce_nodup s.ranking_size (currentSuspects d) _
    (decay_nodup (currentSuspects d) h)

theorem addSample_hist_len (s : LeakAnalyzer) (snap : List (Nat × Nat))
    (h : s.suspected_histogram.length ≤ s.ranking_size) :
    (s.AddSample snap).suspected_histogram.length ≤ s.ranking_size :=
  analyzeDeltas_hist_len
    { s with prev_ranked_entries := s.ranked_entries, ranked_entries := snap }
    (computeDeltas s.ranking_size s.ranked_entries snap) h

/-! ## Claim theorems: C6, C7, C8, C9 -/

/-- Claim C6: in each cycle, an already-tracked suspected class has its
score incremented by exactly 1; a fresh class is only ever inserted with
score 1; no existing entry is evicted; when the table is full its key set
does not change at all (new classes are silently not tracked); and with
ranking_size 1 the first of two simultaneously-new suspects in set
iteration order takes the only slot. -/
theorem reinforcement_spec :
    (∀ (rsize : Nat) (hist : List (Nat × Nat)) (susp : List Nat) (v s : Nat),
      susp.Nodup → v ∈ susp → lookupScore hist v = some s →
      lookupScore (reinforce rsize hist susp) v = some (s + 1)) ∧
    (∀ (rsize : Nat) (hist : List (Nat × Nat)) (susp : List Nat) (v c : Nat),
      susp.Nodup → lookupScore hist v = none →
      lookupScore (reinforce rsize hist susp) v = some c → c = 1) ∧
    (∀ (rsize : Nat) (hist : List (Nat × Nat)) (susp : List Nat) (u : Nat),
      u ∈ hist.map Prod.fst → u ∈ (reinforce rsize hist susp).map Prod.fst) ∧
    (∀ (rsize : Nat) (hist : List (Nat × Nat)) (susp : List Nat),
      rsize ≤ hist.length →
      (reinforce rsize hist susp).map Prod.fst = hist.map Prod.fst) ∧
    (∀ a b : Nat, a < b → reinforce 1 [] [a, b] = [(a, 1)]) := by
  refine ⟨?incrC, ?freshC, ?monoC, ?fullC, ?orderC⟩
  case incrC =>
    intro rsize hist susp v s hnd hv hl
    exact reinforce_lookup_mem_some rsize v susp hist s hnd hv hl
  case freshC =>
    intro rsize hist susp v c hnd hl hres
    exact reinforce_lookup_fresh rsize v susp hist c hnd hl hres
  case monoC =>
    intro rsize hist susp u h
    exact reinforce_keys_mono rsize u susp hist h
  case fullC =>
    intro rsize hist susp h
    exact reinforce_keys_full rsize susp hist h
  case orderC =>
    intro a b hab
    have hne : ¬ ((a, 1).1 = b) := by
      intro hc
      simp at hc
      omega
    have h1 : reinforceStep 1 ([] : List (Nat × Nat)) a = [(a, 1)] := by
      rw [reinforceStep_of_none 1
        (show lookupScore [] a = none from rfl),
        if_pos (by norm_num : ([] : List (Nat × Nat)).length < 1)]
      rfl
    have h2 : lookupScore [(a, 1)] b = none := by
      rw [lookupScore_cons, if_neg hne]
      rfl
    rw [reinforce_cons, h1, reinforce_cons]
    show reinforceStep 1 [(a, 1)] b = [(a, 1)]
    rw [reinforceStep_of_none 1 h2,
      if_neg (by norm_num : ¬ ([((a : Nat), (1 : Nat))]).length < 1)]

/-- Witness for C6: reinforcing the tracked class 3 (score 2) raises its
score to 3. -/
theorem reinforcement_spec_witness :
    lookupScore (reinforce 5 [((3 : Nat), (2 : Nat))] [3]) 3 = some 3 :=
  reinforcement_spec.1 5 [(3, 2)] [3] 3 2 (by decide) (by decide) (by decide)

/-- Claim C7: decay removes every tracked class that is not currently
suspected, and consequently a class outside the current-suspect set of a
cycle is absent from the score table after that cycle. -/
theorem decay_erases_unsuspected :
    (∀ (hist : List (Nat × Nat)) (susp : List Nat) (v : Nat), v ∉ susp →
      lookupScore (decay hist susp) v = none) ∧
    (∀ (s : LeakAnalyzer) (deltas : List (Nat × Int)) (v : Nat),
      v ∉ currentSuspects deltas →
      lookupScore ((s.AnalyzeDeltas deltas).suspected_histogram) v = none) := by
  constructor
  · exact fun hist susp v hv => lookupScore_decay_of_not_mem hist susp v hv
  · intro s deltas v hv
    rw [analyzeDeltas_histogram, reinforce_lookup_not_mem _ v _ _ hv,
      lookupScore_decay_of_not_mem _ _ v hv]

/-- Witness for C7: class 2 is below the cliff, so after the cycle it has
no score-table entry. -/
theorem decay_erases_unsuspected_witness :
    lookupScore (((LeakAnalyzer.init 1 1).AnalyzeDeltas
      [((0 : Nat), (10 : Int)), (1, 10), (2, 1)]).suspected_histogram) 2 =
      none :=
  decay_erases_unsuspected.2 (LeakAnalyzer.init 1 1)
    [(0, 10), (1, 10), (2, 1)] 2 (by decide)

/-- Claim C8: the confirmed list is rebuilt by one pass over the score
table in key order (it is a sublist of the table keys); every reported
class has a tracked score at or above the threshold; the boundary check
before each append caps the output at ranking_size + 1 entries and that
bound is attained by the mechanism (with ranking_size 1 a three-entry
table yields two confirmed entries). -/
theorem confirmed_suspects_spec :
    (∀ (rsize thr : Nat) (hist : List (Nat × Nat)),
      (confirmAux rsize thr hist []).length ≤ rsize + 1) ∧
    (∀ (rsize thr : Nat) (hist : List (Nat × Nat)) (v : Nat), NodupKeys hist →
      v ∈ confirmAux rsize thr hist [] →
      ∃ sc, lookupScore hist v = some sc ∧ thr ≤ sc) ∧
    (∀ (rsize thr : Nat) (hist : List (Nat × Nat)),
      List.Sublist (confirmAux rsize thr hist []) (hist.map Prod.fst)) ∧
    confirmAux 1 1 [(0, 1), (1, 1), (2, 1)] [] = [0, 1] := by
  refine ⟨?lenC, ?scoreC, ?subC, by decide⟩
  case lenC =>
    intro rsize thr hist
    exact confirmAux_length rsize thr hist [] (by simp)
  case scoreC =>
    intro rsize thr hist v hnd h
    rcases confirmAux_mem rsize thr hist [] v h with h1 | ⟨p, hp, hpv, hpt⟩
    · cases h1
    · have hm : (v, p.2) ∈ hist := by
        rw [← hpv]
        exact hp
      exact ⟨p.2, mem_lookupScore hnd hm, hpt⟩
  case subC =>
    intro rsize thr hist
    rcases confirmAux_append rsize thr hist [] with ⟨t, ht, hs⟩
    rw [ht]
    simpa using hs

/-- Witness for C8: the only confirmed class of the table [(0, 3)] at
threshold 2 indeed has score 3 at least 2. -/
theorem confirmed_suspects_spec_witness :
    ∃ sc, lookupScore [((0 : Nat), (3 : Nat))] 0 = some sc ∧ 2 ≤ sc :=
  confirmed_suspects_spec.2.1 5 2 [(0, 3)] 0
    (show NodupKeys [(0, 3)] by unfold NodupKeys; decide) (by decide)

/-- Claim C9: starting from a freshly constructed analyzer, the
suspicion-score table holds at most ranking_size entries after every
sequence of submitted snapshots. -/
theorem suspicion_scores_bounded (rsize thr : Nat)
    (snaps : List (List (Nat × Nat))) :
    (runSnapshots (LeakAnalyzer.init rsize thr)
      snaps).suspected_histogram.length ≤ rsize := by
  have main : ∀ (ls : List (List (Nat × Nat))) (s : LeakAnalyzer),
      s.suspected_histogram.length ≤ s.ranking_size →
      (runSnapshots s ls).suspected_histogram.length ≤
          (runSnapshots s ls).ranking_size ∧
        (runSnapshots s ls).ranking_size = s.ranking_size := by
    intro ls
    induction ls with
    | nil => intro s h; exact ⟨h, rfl⟩
    | cons snap rest ih =>
        intro s h
        have hconf : (s.AddSample snap).ranking_size = s.ranking_size := rfl
        have hstep : (s.AddSample snap).suspected_histogram.length ≤
            (s.AddSample snap).ranking_size := by
          rw [hconf]
          exact addSample_hist_len s snap h
        have hrun := ih (s.AddSample snap) hstep
        exact ⟨hrun.1, hrun.2.trans hconf⟩
  have h := main snaps (LeakAnalyzer.init rsize thr) (by simp [LeakAnalyzer.init])
  exact le_of_le_of_eq h.1 h.2

/-! ## Helper lemmas: runs of analysis cycles -/

theorem setInsert_sorted (v : Nat) :
    ∀ s : List Nat, List.Pairwise (· < ·) s →
      List.Pairwise (· < ·) (setInsert v s) := by
  intro s
  induction s with
  | nil => intro _; simp [setInsert]
  | cons x xs ih =>
      intro hs
      rw [List.pairwise_cons] at hs
      unfold setInsert
      by_cases h1 : v < x
      · rw [if_pos h1]
        rw [List.pairwise_cons]
        constructor
        · intro b hb
          rcases List.mem_cons.mp hb with hb | hb
          · omega
          · exact lt_trans h1 (hs.1 b hb)
        · rw [List.pairwise_cons]
          exact hs
      · rw [if_neg h1]
        by_cases h2 : v = x
        · rw [if_pos h2]
          rw [List.pairwise_cons]
          exact hs
        · rw [if_neg h2]
          rw [List.pairwise_cons]
          constructor
          · intro b hb
            rcases (mem_setInsert b v xs).mp hb with hb | hb
            · omega
            · exact hs.1 b hb
          · exact ih hs.2

theorem foldl_setInsert_sorted :
    ∀ (xs acc : List Nat), List.Pairwise (· < ·) acc →
      List.Pairwise (· < ·) (xs.foldl (fun s v => setInsert v s) acc) := by
  intro xs
  induction xs with
  | nil => intro acc h; exact h
  | cons x rest ih =>
      intro acc h
      rw [List.foldl_cons]
      exact ih (setInsert x acc) (setInsert_sorted x acc h)

theorem currentSuspects_nodup (l : List (Nat × Int)) :
    (currentSuspects l).Nodup := by
  rcases hfd : findDrop l with _ | di
  · unfold currentSuspects
    rw [hfd]
    simp
  · unfold currentSuspects
    rw [hfd]
    exact List.Pairwise.imp (fun h => Nat.ne_of_lt h)
      (foldl_setInsert_sorted ((l.take di).map Prod.fst) [] (by simp))

theorem runDeltas_cons (s : LeakAnalyzer) (d : List (Nat × Int))
    (rest : List (List (Nat × Int))) :
    runDeltas s (d :: rest) = runDeltas (s.AnalyzeDeltas d) rest := rfl

theorem runDeltas_config :
    ∀ (ds : List (List (Nat × Int))) (s : LeakAnalyzer),
      (runDeltas s ds).ranking_size = s.ranking_size ∧
      (runDeltas s ds).score_threshold = s.score_threshold := by
  intro ds
  induction ds with
  | nil => intro s; exact ⟨rfl, rfl⟩
  | cons d rest ih =>
      intro s
      rw [runDeltas_cons]
      exact ⟨(ih _).1.trans (analyzeDeltas_ranking_size s d),
        (ih _).2.trans (analyzeDeltas_score_threshold s d)⟩

theorem runDeltas_nodup :
    ∀ (ds : List (List (Nat × Int))) (s : LeakAnalyzer),
      NodupKeys s.suspected_histogram →
      NodupKeys (runDeltas s ds).suspected_histogram := by
  intro ds
  induction ds with
  | nil => intro s h; exact h
  | cons d rest ih =>
      intro s h
      rw [runDeltas_cons]
      exact ih _ (analyzeDeltas_nodup s d h)

theorem runDeltas_hist_len :
    ∀ (ds : List (List (Nat × Int))) (s : LeakAnalyzer),
      s.suspected_histogram.length ≤ s.ranking_size →
      (runDeltas s ds).suspected_histogram.length ≤
        (runDeltas s ds).ranking_size := by
  intro ds
  induction ds with
  | nil => intro s h; exact h
  | cons d rest ih =>
      intro s h
      rw [runDeltas_cons]
      apply ih
      rw [analyzeDeltas_ranking_size]
      exact analyzeDeltas_hist_len s d h

theorem runDeltas_score :
    ∀ (ds : List (List (Nat × Int))) (s : LeakAnalyzer) (v m : Nat),
      NodupKeys s.suspected_histogram →
      s.suspected_histogram.length ≤ s.ranking_size →
      lookupScore s.suspected_histogram v = some m →
      (∀ d ∈ ds, v ∈ currentSuspects d) →
      lookupScore (runDeltas s ds).suspected_histogram v =
        some (m + ds.length) := by
  intro ds
  induction ds with
  | nil => intro s v m _ _ hl _; simpa using hl
  | cons d rest ih =>
      intro s v m hnd hlen hl hall
      have hvd : v ∈ currentSuspects d := hall d (by simp)
      have hstep : lookupScore (s.AnalyzeDeltas d).suspected_histogram v =
          some (m + 1) := by
        rw [analyzeDeltas_histogram]
        apply reinforce_lookup_mem_some s.ranking_size v (currentSuspects d) _
          m (currentSuspects_nodup d) hvd
        rw [lookupScore_decay_of_mem _ _ v hvd]
        exact hl
      have hnd2 := analyzeDeltas_nodup s d hnd
      have hlen2 : (s.AnalyzeDeltas d).suspected_histogram.length ≤
          (s.AnalyzeDeltas d).ranking_size := by
        rw [analyzeDeltas_ranking_size]
        exact analyzeDeltas_hist_len s d hlen
      have hall2 : ∀ d2 ∈ rest, v ∈ currentSuspects d2 :=
        fun d2 hd2 => hall d2 (by simp [hd2])
      have hrun := ih (s.AnalyzeDeltas d) v (m + 1) hnd2 hlen2 hstep hall2
      have harith : m + 1 + rest.length = m + (d :: rest).length := by
        simp only [List.length_cons]
        omega
      rw [runDeltas_cons, hrun, harith]

theorem runDeltas_after_cycle_leaks :
    ∀ (ds : List (List (Nat × Int))) (s : LeakAnalyzer) (d : List (Nat × Int)),
      (runDeltas (s.AnalyzeDeltas d) ds).suspected_leaks =
        confirmAux s.ranking_size s.score_threshold
          (runDeltas (s.AnalyzeDeltas d) ds).suspected_histogram [] := by
  intro ds
  induction ds with
  | nil => intro s d; exact analyzeDeltas_leaks s d
  | cons d2 rest ih =>
      intro s d
      rw [runDeltas_cons, ih (s.AnalyzeDeltas d) d2,
        analyzeDeltas_ranking_size, analyzeDeltas_score_threshold]

/-! ## Claim theorems: C5 -/

/-- Counterexample to C5 as stated: with ranking_size 1 and
score_threshold 1, classes 0 and 1 are both currently suspected, so class 1
has been in the current-suspect set for score_threshold consecutive cycles,
yet the full score table silently drops it and it never reaches the
confirmed list at (or after) the threshold cycle. -/
theorem suspect_dropped_when_table_full_not_confirmed :
    (1 : Nat) ∈ currentSuspects [((0 : Nat), (10 : Int)), (1, 10), (2, 1)] ∧
    ((LeakAnalyzer.init 1 1).AnalyzeDeltas
        [((0 : Nat), (10 : Int)), (1, 10), (2, 1)]).score_threshold = 1 ∧
    ¬ (1 : Nat) ∈ ((LeakAnalyzer.init 1 1).AnalyzeDeltas
        [((0 : Nat), (10 : Int)), (1, 10), (2, 1)]).suspected_leaks := by
  refine ⟨by decide, rfl, by decide⟩

/-- Claim C5 (amended): if a class enters the score table with score 1 on
the first cycle of a run (the table had room when it was processed) and
stays in the current-suspect set of every following cycle of the run, then
after the k-th cycle of the run it is in the confirmed list exactly when
k has reached score_threshold: no later than the score_threshold-th cycle
and in no earlier cycle.  A class whose first-cycle insertion was dropped
because the table was full is not covered and may never be confirmed. -/
theorem confirmed_at_threshold_cycle (s0 : LeakAnalyzer)
    (d1 : List (Nat × Int)) (rest : List (List (Nat × Int))) (v k : Nat)
    (hnd : NodupKeys s0.suspected_histogram)
    (hlen : s0.suspected_histogram.length ≤ s0.ranking_size)
    (h1 : v ∈ currentSuspects d1)
    (hall : ∀ d ∈ rest, v ∈ currentSuspects d)
    (hins : lookupScore (s0.AnalyzeDeltas d1).suspected_histogram v = some 1)
    (hk1 : 1 ≤ k) (hk2 : k ≤ rest.length + 1) :
    (v ∈ (runDeltas (s0.AnalyzeDeltas d1)
        (rest.take (k - 1))).suspected_leaks ↔
      s0.score_threshold ≤ k) := by
  have hnd1 : NodupKeys (s0.AnalyzeDeltas d1).suspected_histogram :=
    analyzeDeltas_nodup s0 d1 hnd
  have hlen1 : (s0.AnalyzeDeltas d1).suspected_histogram.length ≤
      (s0.AnalyzeDeltas d1).ranking_size := by
    rw [analyzeDeltas_ranking_size]
    exact analyzeDeltas_hist_len s0 d1 hlen
  have htake : ∀ d ∈ rest.take (k - 1), v ∈ currentSuspects d :=
    fun d hd => hall d (List.mem_of_mem_take hd)
  have hscore := runDeltas_score (rest.take (k - 1)) (s0.AnalyzeDeltas d1) v 1
    hnd1 hlen1 hins htake
  have hlentake : (rest.take (k - 1)).length = k - 1 := by
    rw [List.length_take]
    omega
  rw [hlentake] at hscore
  have hke : 1 + (k - 1) = k := by omega
  rw [hke] at hscore
  have hndr := runDeltas_nodup (rest.take (k - 1)) (s0.AnalyzeDeltas d1) hnd1
  have hlenr := runDeltas_hist_len (rest.take (k - 1)) (s0.AnalyzeDeltas d1)
    hlen1
  have hconf := runDeltas_config (rest.take (k - 1)) (s0.AnalyzeDeltas d1)
  have hlenok : (runDeltas (s0.AnalyzeDeltas d1)
      (rest.take (k - 1))).suspected_histogram.length ≤ s0.ranking_size :=
    le_of_le_of_eq hlenr
      (hconf.1.trans (analyzeDeltas_ranking_size s0 d1))
  rw [runDeltas_after_cycle_leaks (rest.take (k - 1)) s0 d1]
  rw [confirm_mem_iff s0.ranking_size s0.score_threshold _ v hndr hlenok]
  constructor
  · intro h
    rcases h with ⟨sc, hsc, hthr⟩
    rw [hscore] at hsc
    have : k = sc := by injection hsc
    omega
  · intro hthr
    exact ⟨k, hscore, hthr⟩

/-- Witness for C5: with ranking_size 5 and score_threshold 2, class 0 is
suspected in two consecutive cycles, enters the table with score 1 on the
first, and is confirmed exactly at the second cycle. -/
theorem confirmed_at_threshold_cycle_witness :
    ((0 : Nat) ∈ (runDeltas ((LeakAnalyzer.init 5 2).AnalyzeDeltas
        [((0 : Nat), (10 : Int)), (1, 1)])
        ([[((0 : Nat), (10 : Int)), (1, 1)]].take (2 - 1))).suspected_leaks ↔
      (LeakAnalyzer.init 5 2).score_threshold ≤ 2) :=
  confirmed_at_threshold_cycle (LeakAnalyzer.init 5 2) [(0, 10), (1, 1)]
    [[(0, 10), (1, 1)]] 0 2 (by unfold NodupKeys; decide) (by decide)
    (by decide) (by decide) (by decide) (by decide) (by decide)
